import Mathlib

/-!
# Per-key rate limiter (`rate_limiter`): embedding and verification

Shallow embedding of `limit.go` and `limiter.go`.

* Go's `int32` / `int64` values are integers with explicit wrap-around
  (`wrapInt32`, `wrapInt64`).
* `*limit` pointers are addresses into a heap held by `World`; the ticker
  that `newLimit` creates for a `limit` lives at the same address in a table
  of its own (`true` = running, `false` = stopped).
* The registry map `map[TKey]*limit` is a function `TKey → Option Ptr`.
* `select` in `limit.run` is driven by a schedule of events: a `tick`
  (a value arrived on `ticker.C`) or `done` (`ctx.Done()` is closed).  A
  stopped ticker delivers nothing, and a schedule that ends without `done`
  leaves `run` waiting in `select`.
-/

namespace RateLimiter

set_option linter.unusedSectionVars false

/-! ## Machine integers -/

/-- Value `math.MaxInt32`. -/
def MaxInt32 : Int := 2147483647

/-- Two's complement wrap-around of an `int32` result. -/
def wrapInt32 (x : Int) : Int := (x + 2147483648) % 4294967296 - 2147483648

/-- Two's complement wrap-around of an `int64` result. -/
def wrapInt64 (x : Int) : Int :=
  (x + 9223372036854775808) % 18446744073709551616 - 9223372036854775808

/-- Range of an `int32`. -/
def isInt32 (x : Int) : Prop := -2147483648 ≤ x ∧ x ≤ 2147483647

/-- Range of an `int64` (and of `int` on a 64-bit platform). -/
def isInt64 (x : Int) : Prop := -9223372036854775808 ≤ x ∧ x ≤ 9223372036854775807

instance (x : Int) : Decidable (isInt32 x) := by unfold isInt32; infer_instance
instance (x : Int) : Decidable (isInt64 x) := by unfold isInt64; infer_instance

/-! ## Data model -/

/-- Values of `time.Time` that the package builds: the zero value `time.Time{}`
and `time.UnixMilli(msec)`. -/
inductive Time where
  | zero : Time
  | UnixMilli (msec : Int) : Time
  deriving DecidableEq, Repr

/-- Address of a `limit` (and of its ticker). -/
abbrev Ptr := Nat

/-- Struct `limit[TKey]`: `amount atomic.Int32`, `next atomic.Int64`. -/
structure limit where
  amount : Int
  next : Int
  deriving DecidableEq, Repr

/-- Struct `Limiter[TKey]` (the mutex is not data). -/
structure Limiter (TKey : Type) where
  limits : TKey → Option Ptr
  maxBurst : Int
  period : Int

/-- A registry together with the objects its pointers refer to. -/
structure World (TKey : Type) where
  limiter : Limiter TKey
  heap : Ptr → limit
  tickers : Ptr → Bool
  brk : Ptr

/-- Result of running a function: it returned, it is still waiting in `select`,
or it panicked. -/
inductive Outcome (σ α : Type) where
  | ret (s : σ) (a : α) : Outcome σ α
  | blocked (s : σ) : Outcome σ α
  | panicked (msg : String) : Outcome σ α

/-- What `select` in `limit.run` receives. -/
inductive Event where
  | tick : Event
  | done : Event
  deriving DecidableEq, Repr

/-- Point update of a table (`m[k] = v`, `p.Store(v)`). -/
def setAt {α β : Type} [DecidableEq α] (f : α → β) (a : α) (v : β) : α → β :=
  fun x => if x = a then v else f x

/-! ## `limiter.go` -/

/-- Constructor `New(maxBurst, periodMillis)`. -/
def New (TKey : Type) (maxBurst periodMillis : Int) : Except String (Limiter TKey) :=
  let maxBurst := if maxBurst < 1 then 1 else maxBurst
  if maxBurst > MaxInt32 then
    Except.error "to large max burst"
  else
    let periodMillis := if periodMillis < 1 then 1 else periodMillis
    Except.ok
      { limits := fun _ => none
        maxBurst := wrapInt32 maxBurst
        period := wrapInt64 periodMillis }

/-- World of a registry that has just been constructed: nothing allocated. -/
def World.ofLimiter {TKey : Type} (l : Limiter TKey) : World TKey :=
  { limiter := l
    heap := fun _ => ⟨0, 0⟩
    tickers := fun _ => false
    brk := 0 }

variable {TKey : Type} [DecidableEq TKey]

/-- Method `Limiter.remove(key)`: `delete(l.limits, key)`. -/
def Limiter.remove (w : World TKey) (key : TKey) : World TKey :=
  { w with limiter := { w.limiter with limits := setAt w.limiter.limits key none } }

/-! ## `limit.go` -/

/-- Method `limit.call(maxBurst, period)` on the value of one `limit`. -/
def limit.call (l : limit) (maxBurst _period : Int) : limit × Bool × Time :=
  let incAmount := wrapInt32 (l.amount + 1)
  let l1 : limit := { l with amount := incAmount }
  if incAmount > maxBurst then
    ({ l1 with amount := wrapInt32 (l1.amount + (-1)) }, false, Time.UnixMilli l1.next)
  else
    (l1, true, Time.zero)

/-- Method `limit.tick(ticker, limiter, key)` for the `limit` at address `l`. -/
def limit.tick (w : World TKey) (l ticker : Ptr) (key : TKey) : World TKey :=
  let dec := wrapInt32 ((w.heap l).amount + (-1))
  let w1 : World TKey := { w with heap := setAt w.heap l { w.heap l with amount := dec } }
  if dec < 1 then
    let w2 : World TKey := { w1 with tickers := setAt w1.tickers ticker false }
    Limiter.remove w2 key
  else
    { w1 with
      heap := setAt w1.heap l
        { w1.heap l with next := wrapInt64 ((w1.heap l).next + w1.limiter.period) } }

/-- Method `limit.run(ctx, ticker, limiter, key)`: the `select` loop, one
iteration per event of the schedule. -/
def limit.run : List Event → World TKey → Ptr → Ptr → TKey → Outcome (World TKey) Unit
  | [], w, _, _, _ => Outcome.blocked w
  | Event.done :: _, w, _, ticker, _ =>
      Outcome.ret { w with tickers := setAt w.tickers ticker false } ()
  | Event.tick :: es, w, l, ticker, key =>
      if w.tickers ticker then
        limit.run es (limit.tick w l ticker key) l ticker key
      else
        limit.run es w l ticker key

/-- Function `newLimit(ctx, limiter, key)`; `now` is `time.Now().UnixMilli()`,
`events` is what the `select` of `run` receives. -/
def newLimit (now : Int) (events : List Event) (w : World TKey) (key : TKey) :
    Outcome (World TKey) Ptr :=
  let l : Ptr := w.brk
  let w1 : World TKey := { w with heap := setAt w.heap l ⟨0, 0⟩, brk := w.brk + 1 }
  -- time.NewTicker(time.Duration(limiter.period) * time.Millisecond)
  let d := wrapInt64 (w1.limiter.period * 1000000)
  if d ≤ 0 then
    Outcome.panicked "non-positive interval for NewTicker"
  else
    let ticker : Ptr := l
    let w2 : World TKey := { w1 with tickers := setAt w1.tickers ticker true }
    let w3 : World TKey := { w2 with heap := setAt w2.heap l { w2.heap l with next := now } }
    match limit.run events w3 l ticker key with
    | Outcome.ret w4 _ => Outcome.ret w4 l
    | Outcome.blocked s => Outcome.blocked s
    | Outcome.panicked msg => Outcome.panicked msg

/-- Last statement of `Try`: `lim.call(l.maxBurst, l.period)` on the `limit`
at address `lim`. -/
def callAt (w : World TKey) (lim : Ptr) : World TKey × Bool × Time :=
  let r := (w.heap lim).call w.limiter.maxBurst w.limiter.period
  ({ w with heap := setAt w.heap lim r.1 }, r.2)

/-- Method `Limiter.Try(ctx, key)`. -/
def Limiter.Try (now : Int) (events : List Event) (w : World TKey) (key : TKey) :
    Outcome (World TKey) (Bool × Time) :=
  match w.limiter.limits key with
  | some lim =>
      let r := callAt w lim
      Outcome.ret r.1 r.2
  | none =>
      match newLimit now events w key with
      | Outcome.ret w1 lim =>
          match w1.limiter.limits key with
          | some checkLim =>
              let r := callAt w1 checkLim
              Outcome.ret r.1 r.2
          | none =>
              let w2 : World TKey :=
                { w1 with limiter := { w1.limiter with limits := setAt w1.limiter.limits key (some lim) } }
              let r := callAt w2 lim
              Outcome.ret r.1 r.2
      | Outcome.blocked s => Outcome.blocked s
      | Outcome.panicked msg => Outcome.panicked msg

/-! ## Sequences of operations -/

/-- Results of `n` consecutive `call`s on one `limit`, oldest first. -/
def limit.calls (maxBurst period : Int) : Nat → limit → limit × List (Bool × Time)
  | 0, l => (l, [])
  | n + 1, l =>
      let r := l.call maxBurst period
      let rest := limit.calls maxBurst period n r.1
      (rest.1, r.2 :: rest.2)

/-- Results of `n` consecutive `Try(ctx, key)`, oldest first. -/
def Limiter.TryN (now : Int) (events : List Event) (key : TKey) :
    Nat → World TKey → Outcome (World TKey) (List (Bool × Time))
  | 0, w => Outcome.ret w []
  | n + 1, w =>
      match Limiter.Try now events w key with
      | Outcome.ret w1 r =>
          match Limiter.TryN now events key n w1 with
          | Outcome.ret w2 rs => Outcome.ret w2 (r :: rs)
          | Outcome.blocked s => Outcome.blocked s
          | Outcome.panicked msg => Outcome.panicked msg
      | Outcome.blocked s => Outcome.blocked s
      | Outcome.panicked msg => Outcome.panicked msg

/-- Returned value of an outcome, if it returned. -/
def Outcome.val? {σ α : Type} : Outcome σ α → Option α
  | Outcome.ret _ a => some a
  | Outcome.blocked _ => none
  | Outcome.panicked _ => none

/-- State an outcome stopped in, if it returned or is still waiting. -/
def Outcome.state? {σ α : Type} : Outcome σ α → Option σ
  | Outcome.ret s _ => some s
  | Outcome.blocked s => some s
  | Outcome.panicked _ => none

/-! ## Definitions used in the statements -/

/-- A registry in which key `7` is mapped to a state at address `0` that has
admitted nothing yet (`maxBurst = 3`, `period = 100`). -/
def sampleWorld : World Nat :=
  { limiter :=
      { limits := fun k => if k = 7 then some 0 else none
        maxBurst := 3
        period := 100 }
    heap := fun _ => ⟨0, 1000⟩
    tickers := fun _ => true
    brk := 1 }

/-- World `s` differs from `w` at most in the `limit` at address `l`, in the
tickers, and in the entry of `key`, which is as in `w` or deleted. -/
def agreesExcept (l : Ptr) (key : TKey) (w s : World TKey) : Prop :=
  s.limiter.maxBurst = w.limiter.maxBurst ∧
  s.limiter.period = w.limiter.period ∧
  (∀ k, k ≠ key → s.limiter.limits k = w.limiter.limits k) ∧
  (s.limiter.limits key = w.limiter.limits key ∨ s.limiter.limits key = none) ∧
  (∀ q, q ≠ l → s.heap q = w.heap q) ∧
  s.brk = w.brk

/-- Shape of every registry the code can build: registered addresses are
allocated, and no two keys share a `limit`. -/
def World.WF (w : World TKey) : Prop :=
  (∀ k p, w.limiter.limits k = some p → p < w.brk) ∧
  (∀ k1 k2 p, w.limiter.limits k1 = some p → w.limiter.limits k2 = some p → k1 = k2)

/-- Key `B` is not affected by going from `w` to `s`: same entry, same state
at that entry, same result of a following `Try(B)`. -/
def unaffected (B : TKey) (w s : World TKey) : Prop :=
  s.limiter.limits B = w.limiter.limits B ∧
  (∀ pB, w.limiter.limits B = some pB → s.heap pB = w.heap pB) ∧
  (∀ now es, (Limiter.Try now es s B).val? = (Limiter.Try now es w B).val?)

/-- A registry with two keys: `7` at address `0` and `8` at address `1`. -/
def twoKeyWorld : World Nat :=
  { limiter :=
      { limits := fun k => if k = 7 then some 0 else if k = 8 then some 1 else none
        maxBurst := 3
        period := 100 }
    heap := fun q => if q = 0 then ⟨3, 1000⟩ else ⟨1, 2000⟩
    tickers := fun _ => true
    brk := 2 }

/-- State an outcome stopped in, or `d` if it panicked. -/
def Outcome.stateD {σ α : Type} (d : σ) : Outcome σ α → σ
  | Outcome.ret s _ => s
  | Outcome.blocked s => s
  | Outcome.panicked _ => d

/-- A completed step on one `limit`: a `call`, or a `tick`. -/
inductive Op where
  | call : Op
  | tick : Op
  deriving DecidableEq, Repr

/-- One completed step on the `limit` at address `l`, registered under `key`.
A tick is delivered only while the ticker of `l` runs. -/
def stepAt (l : Ptr) (key : TKey) (w : World TKey) : Op → World TKey
  | Op.call => (callAt w l).1
  | Op.tick => if w.tickers l then limit.tick w l l key else w

/-- State after a sequence of completed steps, oldest first. -/
def runOps (l : Ptr) (key : TKey) : List Op → World TKey → World TKey
  | [], w => w
  | op :: ops, w => runOps l key ops (stepAt l key w op)

/-- State of the `limit` at `l` is as `newLimit` leaves it before `run`:
`amount = 0`, ticker running. -/
def isFresh (w : World TKey) (l : Ptr) : Prop :=
  (w.heap l).amount = 0 ∧ w.tickers l = true

/-- Invariant of the steps on the `limit` at `l`. -/
def stepInv (l : Ptr) (w : World TKey) : Prop :=
  w.limiter.maxBurst < MaxInt32 ∧
  -1 ≤ (w.heap l).amount ∧ (w.heap l).amount < MaxInt32 ∧
  (w.tickers l = true → 0 ≤ (w.heap l).amount)

/-- State after `k` consecutive ticks of the `limit` at address `l`. -/
def tickN (l : Ptr) (key : TKey) : Nat → World TKey → World TKey
  | 0, w => w
  | k + 1, w => tickN l key k (limit.tick w l l key)

/-- Value `math.MaxInt64`. -/
def MaxInt64 : Int := 9223372036854775807

/-- A registry whose period is `2^62 + 1` ms, with key `7` at address `0`,
created at `1000` and with three admissions recorded. -/
def longPeriodWorld : World Nat :=
  { limiter :=
      { limits := fun k => if k = 7 then some 0 else none
        maxBurst := 3
        period := 4611686018427387905 }
    heap := fun _ => ⟨3, 1000⟩
    tickers := fun _ => true
    brk := 1 }

/-! ## Arithmetic helpers -/

theorem wrapInt32_of_isInt32 {x : Int} (h : isInt32 x) : wrapInt32 x = x := by
  unfold isInt32 at h
  unfold wrapInt32
  omega

theorem wrapInt64_of_isInt64 {x : Int} (h : isInt64 x) : wrapInt64 x = x := by
  unfold isInt64 at h
  unfold wrapInt64
  omega

theorem setAt_same {α β : Type} [DecidableEq α] (f : α → β) (a : α) (v : β) :
    setAt f a v a = v := by
  simp [setAt]

theorem setAt_other {α β : Type} [DecidableEq α] (f : α → β) {a x : α} (v : β)
    (h : x ≠ a) : setAt f a v x = f x := by
  simp [setAt, h]

/-! ## `limit.call` -/

theorem call_accepts (l : limit) (maxBurst period : Int)
    (hl : isInt32 l.amount) (hm : isInt32 maxBurst) (h : l.amount < maxBurst) :
    l.call maxBurst period = ({ l with amount := l.amount + 1 }, true, Time.zero) := by
  have hw : wrapInt32 (l.amount + 1) = l.amount + 1 := by
    apply wrapInt32_of_isInt32
    unfold isInt32 at *
    omega
  unfold limit.call
  simp only [hw]
  rw [if_neg (by omega)]

theorem call_rejects (l : limit) (maxBurst period : Int)
    (hl : isInt32 l.amount) (h : maxBurst ≤ l.amount) (hlt : l.amount < MaxInt32) :
    l.call maxBurst period = (l, false, Time.UnixMilli l.next) := by
  have hw : wrapInt32 (l.amount + 1) = l.amount + 1 := by
    apply wrapInt32_of_isInt32
    unfold isInt32 MaxInt32 at *
    omega
  have hw2 : wrapInt32 (l.amount + 1 + -1) = l.amount := by
    have : l.amount + 1 + -1 = l.amount := by omega
    rw [this]
    exact wrapInt32_of_isInt32 hl
  unfold limit.call
  simp only [hw, hw2]
  rw [if_pos (by omega)]

/-- C2. Admission postcondition: on a state whose `amount` is strictly below
`maxBurst`, `call` returns `(true, time.Time{})`, adds exactly 1 to `amount`
and leaves `next` as it was. -/
theorem call_admits_below_maxBurst (l : limit) (maxBurst period : Int)
    (hl : isInt32 l.amount) (hm : isInt32 maxBurst) (h : l.amount < maxBurst) :
    (l.call maxBurst period).2 = (true, Time.zero) ∧
      (l.call maxBurst period).1.amount = l.amount + 1 ∧
      (l.call maxBurst period).1.next = l.next := by
  rw [call_accepts l maxBurst period hl hm h]
  exact ⟨rfl, rfl, rfl⟩

theorem call_admits_below_maxBurst_witness :
    ((limit.mk 2 1000).call 3 100).2 = (true, Time.zero) ∧
      ((limit.mk 2 1000).call 3 100).1.amount = 2 + 1 ∧
      ((limit.mk 2 1000).call 3 100).1.next = 1000 :=
  call_admits_below_maxBurst (limit.mk 2 1000) 3 100 (by decide) (by decide) (by decide)

/-- C3. Denial is atomic: on a state whose `amount` is at least `maxBurst`
and below `2^31-1`, `call` returns `false` with `time.UnixMilli(next)` and
leaves `amount` and `next` exactly as they were. -/
theorem call_denies_at_maxBurst (l : limit) (maxBurst period : Int)
    (hl : isInt32 l.amount) (h : maxBurst ≤ l.amount) (hlt : l.amount < MaxInt32) :
    (l.call maxBurst period).2 = (false, Time.UnixMilli l.next) ∧
      (l.call maxBurst period).1.amount = l.amount ∧
      (l.call maxBurst period).1.next = l.next := by
  rw [call_rejects l maxBurst period hl h hlt]
  exact ⟨rfl, rfl, rfl⟩

theorem call_denies_at_maxBurst_witness :
    ((limit.mk 3 1000).call 3 100).2 = (false, Time.UnixMilli 1000) ∧
      ((limit.mk 3 1000).call 3 100).1.amount = 3 ∧
      ((limit.mk 3 1000).call 3 100).1.next = 1000 :=
  call_denies_at_maxBurst (limit.mk 3 1000) 3 100 (by decide) (by decide) (by decide)

/-! ## Burst bound -/

theorem calls_flags (maxBurst period : Int) (hm : maxBurst < MaxInt32) :
    ∀ (n k : Nat) (l : limit), isInt32 l.amount → l.amount + k = maxBurst →
      (limit.calls maxBurst period n l).2.map Prod.fst
        = List.replicate (min n k) true ++ List.replicate (n - k) false := by
  intro n
  induction n with
  | zero => intro k l _ _; simp [limit.calls]
  | succ n ih =>
    intro k l hl hk
    cases k with
    | zero =>
      have hd := call_rejects l maxBurst period hl (by omega) (by omega)
      have hrec := ih 0 l hl hk
      simp only [limit.calls, hd, List.map_cons, hrec]
      simp [List.replicate_succ]
    | succ k =>
      have hmr : isInt32 maxBurst := by
        unfold isInt32 MaxInt32 at *
        omega
      have ha := call_accepts l maxBurst period hl hmr (by omega)
      have hl1 : isInt32 (l.amount + 1) := by
        unfold isInt32 MaxInt32 at *
        omega
      have hrec := ih k { l with amount := l.amount + 1 } hl1 (by simp only; omega)
      simp only [limit.calls, ha, List.map_cons, hrec]
      simp [List.replicate_succ, Nat.succ_min_succ]

theorem Try_present (now : Int) (events : List Event) (w : World TKey) (key : TKey)
    (p : Ptr) (h : w.limiter.limits key = some p) :
    Limiter.Try now events w key = Outcome.ret (callAt w p).1 (callAt w p).2 := by
  unfold Limiter.Try
  rw [h]

theorem TryN_present (now : Int) (events : List Event) (key : TKey) (p : Ptr) :
    ∀ (n : Nat) (w : World TKey), w.limiter.limits key = some p →
      ∃ w1 : World TKey,
        Limiter.TryN now events key n w
            = Outcome.ret w1 (limit.calls w.limiter.maxBurst w.limiter.period n (w.heap p)).2 ∧
          w1.limiter = w.limiter ∧
          w1.heap p = (limit.calls w.limiter.maxBurst w.limiter.period n (w.heap p)).1 := by
  intro n
  induction n with
  | zero => intro w _; exact ⟨w, rfl, rfl, rfl⟩
  | succ n ih =>
    intro w h
    have hstep := Try_present now events w key p h
    have hlim : (callAt w p).1.limiter = w.limiter := rfl
    have hheap : (callAt w p).1.heap p
        = ((w.heap p).call w.limiter.maxBurst w.limiter.period).1 := by
      simp [callAt, setAt]
    obtain ⟨w1, h1, h2, h3⟩ := ih (callAt w p).1 (by rw [hlim]; exact h)
    refine ⟨w1, ?_, ?_, ?_⟩
    · simp only [Limiter.TryN, hstep, h1, hlim, hheap, limit.calls]
      rfl
    · rw [h2, hlim]
    · rw [h3, hlim, hheap]
      rfl

/-- C1. Burst bound: with `1 ≤ maxBurst < 2^31-1` and `N > maxBurst`, `N`
consecutive `call`s on a state that starts at `amount = 0`, with no tick in
between, admit exactly the first `maxBurst` and deny the other
`N - maxBurst`; the same holds for `N` consecutive `Try` on a key whose
registered state starts at `amount = 0`, and all of them return. -/
theorem burst_bound (maxBurst : Int) (N : Nat) (h1 : 1 ≤ maxBurst)
    (h2 : maxBurst < MaxInt32) (hN : maxBurst < N)
    (period : Int) (l : limit) (hl0 : l.amount = 0)
    (now : Int) (events : List Event) (w : World TKey) (key : TKey) (p : Ptr)
    (hmb : w.limiter.maxBurst = maxBurst) (hp : w.limiter.limits key = some p)
    (hw0 : (w.heap p).amount = 0) :
    (limit.calls maxBurst period N l).2.map Prod.fst
        = List.replicate maxBurst.toNat true
            ++ List.replicate (N - maxBurst.toNat) false ∧
    ∃ (w1 : World TKey) (rs : List (Bool × Time)),
      Limiter.TryN now events key N w = Outcome.ret w1 rs ∧
      rs.map Prod.fst
        = List.replicate maxBurst.toNat true
            ++ List.replicate (N - maxBurst.toNat) false := by
  have key_fact : ∀ (period : Int) (l : limit), l.amount = 0 →
      (limit.calls maxBurst period N l).2.map Prod.fst
        = List.replicate maxBurst.toNat true
            ++ List.replicate (N - maxBurst.toNat) false := by
    intro period l h0
    have hl : isInt32 l.amount := by rw [h0]; decide
    have hk : l.amount + (maxBurst.toNat : Int) = maxBurst := by
      rw [h0, Int.toNat_of_nonneg (by omega)]
      omega
    have hle : maxBurst.toNat ≤ N := by omega
    rw [calls_flags maxBurst period h2 N maxBurst.toNat l hl hk, Nat.min_eq_right hle]
  refine ⟨key_fact period l hl0, ?_⟩
  obtain ⟨w1, hw1, _, _⟩ := TryN_present now events key p N w hp
  refine ⟨w1, _, hw1, ?_⟩
  rw [hmb]
  exact key_fact _ _ hw0

theorem burst_bound_witness :
    (limit.calls 3 100 5 (limit.mk 0 1000)).2.map Prod.fst
        = List.replicate (3 : Int).toNat true
            ++ List.replicate (5 - (3 : Int).toNat) false ∧
    ∃ (w1 : World Nat) (rs : List (Bool × Time)),
      Limiter.TryN 1000 [] 7 5 sampleWorld = Outcome.ret w1 rs ∧
      rs.map Prod.fst
        = List.replicate (3 : Int).toNat true
            ++ List.replicate (5 - (3 : Int).toNat) false :=
  burst_bound 3 5 (by decide) (by decide) (by decide) 100 (limit.mk 0 1000) rfl
    1000 [] sampleWorld 7 0 rfl rfl rfl

/-! ## Retry time -/

/-- C4. Scenario `New(3, 100)`, key `"x"` first seen at `now = 1000` (the
context is done, no tick has fired): of four immediate `Try("x")` the first
three are admitted and the fourth is denied with
`retryAt = time.UnixMilli(1000)`, the creation time, and not
`time.UnixMilli(1100)` = creation time + period. -/
theorem retryAt_is_creation_time :
    ∃ (lim : Limiter String) (w : World String),
      New String 3 100 = Except.ok lim ∧
      Limiter.TryN 1000 [Event.done] "x" 4 (World.ofLimiter lim)
        = Outcome.ret w
            [(true, Time.zero), (true, Time.zero), (true, Time.zero),
              (false, Time.UnixMilli 1000)] ∧
      Time.UnixMilli 1000 ≠ Time.UnixMilli (1000 + 100) :=
  ⟨_, _, rfl, rfl, by decide⟩

/-! ## Frame lemmas -/

theorem agreesExcept_refl (l : Ptr) (key : TKey) (w : World TKey) :
    agreesExcept l key w w :=
  ⟨rfl, rfl, fun _ _ => rfl, Or.inl rfl, fun _ _ => rfl, rfl⟩

theorem agreesExcept_trans {l : Ptr} {key : TKey} {a b c : World TKey}
    (h1 : agreesExcept l key a b) (h2 : agreesExcept l key b c) :
    agreesExcept l key a c := by
  obtain ⟨a1, a2, a3, a4, a5, a6⟩ := h1
  obtain ⟨b1, b2, b3, b4, b5, b6⟩ := h2
  refine ⟨b1.trans a1, b2.trans a2, fun k hk => (b3 k hk).trans (a3 k hk), ?_,
    fun q hq => (b5 q hq).trans (a5 q hq), b6.trans a6⟩
  rcases b4 with h | h
  · rcases a4 with h0 | h0
    · exact Or.inl (h.trans h0)
    · exact Or.inr (h.trans h0)
  · exact Or.inr h

theorem tick_agrees (w : World TKey) (l ticker : Ptr) (key : TKey) :
    agreesExcept l key w (limit.tick w l ticker key) := by
  unfold limit.tick
  simp only
  split
  · refine ⟨rfl, rfl, ?_, ?_, ?_, rfl⟩
    · intro k hk
      simp [Limiter.remove, setAt, hk]
    · right
      simp [Limiter.remove, setAt]
    · intro q hq
      simp [Limiter.remove, setAt, hq]
  · refine ⟨rfl, rfl, fun _ _ => rfl, Or.inl rfl, ?_, rfl⟩
    intro q hq
    simp [setAt, hq]

theorem run_agrees (l ticker : Ptr) (key : TKey) :
    ∀ (es : List Event) (w s : World TKey),
      (limit.run es w l ticker key).state? = some s → agreesExcept l key w s := by
  intro es
  induction es with
  | nil =>
    intro w s h
    simp only [limit.run, Outcome.state?, Option.some.injEq] at h
    subst h
    exact agreesExcept_refl l key w
  | cons e es ih =>
    intro w s h
    cases e with
    | done =>
      simp only [limit.run, Outcome.state?, Option.some.injEq] at h
      subst h
      exact ⟨rfl, rfl, fun _ _ => rfl, Or.inl rfl, fun _ _ => rfl, rfl⟩
    | tick =>
      simp only [limit.run] at h
      split at h
      · exact agreesExcept_trans (tick_agrees w l ticker key) (ih _ s h)
      · exact ih w s h

/-- Frame of `newLimit`: whatever state it stops in, the only address written
is the new one, `w.brk`, and the only entry that can change is that of `key`,
by deletion; if it returns, it returns the new address. -/
theorem newLimit_frame (now : Int) (es : List Event) (w s : World TKey) (key : TKey)
    (h : (newLimit now es w key).state? = some s) :
    s.limiter.maxBurst = w.limiter.maxBurst ∧
    s.limiter.period = w.limiter.period ∧
    (∀ k, k ≠ key → s.limiter.limits k = w.limiter.limits k) ∧
    (s.limiter.limits key = w.limiter.limits key ∨ s.limiter.limits key = none) ∧
    (∀ q, q ≠ w.brk → s.heap q = w.heap q) ∧
    s.brk = w.brk + 1 ∧
    (∀ s1 lim, newLimit now es w key = Outcome.ret s1 lim → lim = w.brk) := by
  unfold newLimit at h ⊢
  simp only at h ⊢
  split at h
  · simp [Outcome.state?] at h
  · rename_i hd
    rw [if_neg hd]
    generalize hr : limit.run es _ w.brk w.brk key = r at h ⊢
    have hs : r.state? = some s := by
      cases r <;> simp [Outcome.state?] at h <;> simp [Outcome.state?, h]
    rw [← hr] at hs
    obtain ⟨a1, a2, a3, a4, a5, a6⟩ := run_agrees w.brk w.brk key es _ s hs
    refine ⟨a1, a2, a3, a4, ?_, a6, ?_⟩
    · intro q hq
      rw [a5 q hq]
      simp [setAt, hq]
    · intro s1 lim hret
      cases r <;> simp at hret
      exact hret.2.symm


theorem callAt_heap (w : World TKey) (l : Ptr) :
    (callAt w l).1.heap l = ((w.heap l).call w.limiter.maxBurst w.limiter.period).1 := by
  simp [callAt, setAt]

theorem callAt_heap_other (w : World TKey) {l q : Ptr} (h : q ≠ l) :
    (callAt w l).1.heap q = w.heap q := by
  simp [callAt, setAt, h]

theorem callAt_result (w : World TKey) (l : Ptr) :
    (callAt w l).2 = ((w.heap l).call w.limiter.maxBurst w.limiter.period).2 := rfl

theorem callAt_limiter (w : World TKey) (l : Ptr) : (callAt w l).1.limiter = w.limiter := rfl

theorem tick_amount (w : World TKey) (l ticker : Ptr) (key : TKey) :
    ((limit.tick w l ticker key).heap l).amount = wrapInt32 ((w.heap l).amount + (-1)) := by
  unfold limit.tick
  simp only
  split <;> simp [Limiter.remove, setAt]

/-! ## Decay -/

/-- C5. Decay restores capacity: with `1 ≤ maxBurst < 2^31-1`, on a state
whose burst is exhausted (`amount = maxBurst`), after exactly one `tick` the
next `call` is admitted and the `call` right after it is denied. -/
theorem decay_restores_one (w : World TKey) (l ticker : Ptr) (key : TKey)
    (h1 : 1 ≤ w.limiter.maxBurst) (h2 : w.limiter.maxBurst < MaxInt32)
    (ha : (w.heap l).amount = w.limiter.maxBurst) :
    (callAt (limit.tick w l ticker key) l).2.1 = true ∧
      (callAt (callAt (limit.tick w l ticker key) l).1 l).2.1 = false := by
  obtain ⟨hmb, hpe, _⟩ := tick_agrees w l ticker key
  have hamt := tick_amount w l ticker key
  have hdec : wrapInt32 ((w.heap l).amount + (-1)) = w.limiter.maxBurst - 1 := by
    rw [ha]
    have : isInt32 (w.limiter.maxBurst + (-1)) := by
      unfold isInt32 MaxInt32 at *
      omega
    rw [wrapInt32_of_isInt32 this]
    omega
  rw [hdec] at hamt
  have hr1 : isInt32 ((limit.tick w l ticker key).heap l).amount := by
    rw [hamt]
    unfold isInt32 MaxInt32 at *
    omega
  have hmr : isInt32 w.limiter.maxBurst := by
    unfold isInt32 MaxInt32 at *
    omega
  have hc1 := call_accepts ((limit.tick w l ticker key).heap l) w.limiter.maxBurst
    w.limiter.period hr1 hmr (by rw [hamt]; omega)
  have hh1 : (callAt (limit.tick w l ticker key) l).1.heap l
      = { (limit.tick w l ticker key).heap l with
          amount := ((limit.tick w l ticker key).heap l).amount + 1 } := by
    rw [callAt_heap, hmb, hpe, hc1]
  constructor
  · rw [callAt_result, hmb, hpe, hc1]
  · rw [callAt_result, callAt_limiter, hmb, hpe, hh1]
    rw [call_rejects _ w.limiter.maxBurst w.limiter.period]
    · simp only [hamt]
      unfold isInt32 MaxInt32 at *
      omega
    · simp only [hamt]
      omega
    · simp only [hamt]
      omega

theorem decay_restores_one_witness :
    (callAt (limit.tick
        ({ sampleWorld with heap := fun _ => ⟨3, 1000⟩ } : World Nat) 0 0 7) 0).2.1 = true ∧
      (callAt (callAt (limit.tick
        ({ sampleWorld with heap := fun _ => ⟨3, 1000⟩ } : World Nat) 0 0 7) 0).1 0).2.1
        = false :=
  decay_restores_one ({ sampleWorld with heap := fun _ => ⟨3, 1000⟩ } : World Nat) 0 0 7
    (by decide) (by decide) rfl

/-! ## Construction -/

/-- C7. Construction clamping: for `maxBurst ≤ 2^31-1` and every
`periodMillis` (an `int`), `New` returns a registry with an empty map,
`maxBurst = max(maxBurst, 1)` and `period = max(periodMillis, 1)`, nothing
truncated; `New(0, 0)` and `New(1, 1)` are the same. -/
theorem New_clamps (maxBurst periodMillis : Int) (hm : maxBurst ≤ MaxInt32)
    (hp : isInt64 periodMillis) :
    New TKey maxBurst periodMillis
        = Except.ok
            { limits := fun _ => none
              maxBurst := max maxBurst 1
              period := max periodMillis 1 } ∧
      New TKey 0 0 = New TKey 1 1 := by
  refine ⟨?_, rfl⟩
  unfold New
  simp only
  have h1 : ¬ (if maxBurst < 1 then 1 else maxBurst) > MaxInt32 := by
    split <;> unfold MaxInt32 at * <;> omega
  rw [if_neg h1]
  have h2 : wrapInt32 (if maxBurst < 1 then 1 else maxBurst) = max maxBurst 1 := by
    rw [wrapInt32_of_isInt32]
    · split <;> omega
    · unfold isInt32 MaxInt32 at *
      split <;> omega
  have h3 : wrapInt64 (if periodMillis < 1 then 1 else periodMillis) = max periodMillis 1 := by
    rw [wrapInt64_of_isInt64]
    · split <;> omega
    · unfold isInt64 at *
      split <;> omega
  rw [h2, h3]

theorem New_clamps_witness :
    New Nat (-5) 0
        = Except.ok
            { limits := fun _ => none
              maxBurst := max (-5) 1
              period := max 0 1 } ∧
      New Nat 0 0 = New Nat 1 1 :=
  New_clamps (-5) 0 (by decide) (by decide)

/-- C8. Function `New` panics if and only if the requested `maxBurst` is
greater than `2^31-1`; for every other `maxBurst` (zero and negative values
included) and every `periodMillis` it returns a registry. -/
theorem New_panics_iff (maxBurst periodMillis : Int) :
    ((∃ msg, New TKey maxBurst periodMillis = Except.error msg) ↔ MaxInt32 < maxBurst) ∧
    ((∃ lim, New TKey maxBurst periodMillis = Except.ok lim) ↔ maxBurst ≤ MaxInt32) := by
  by_cases h : MaxInt32 < maxBurst
  · have hgt : (if maxBurst < 1 then 1 else maxBurst) > MaxInt32 := by
      unfold MaxInt32 at *
      split <;> omega
    have hnew : New TKey maxBurst periodMillis = Except.error "to large max burst" := by
      unfold New
      simp only
      rw [if_pos hgt]
    rw [hnew]
    constructor
    · exact ⟨fun _ => h, fun _ => ⟨_, rfl⟩⟩
    · constructor
      · rintro ⟨lim, hl⟩
        cases hl
      · intro hle
        omega
  · have hgt : ¬ (if maxBurst < 1 then 1 else maxBurst) > MaxInt32 := by
      unfold MaxInt32 at *
      split <;> omega
    have hnew : ∃ lim, New TKey maxBurst periodMillis = Except.ok lim := by
      unfold New
      simp only
      rw [if_neg hgt]
      exact ⟨_, rfl⟩
    obtain ⟨lim, hl⟩ := hnew
    rw [hl]
    constructor
    · constructor
      · rintro ⟨msg, hm⟩
        cases hm
      · intro h1
        exact absurd h1 h
    · exact ⟨fun _ => by omega, fun _ => ⟨_, rfl⟩⟩

/-! ## Well-formed registries -/

theorem WF_of_shrink (w s : World TKey) (hw : w.WF)
    (hl : ∀ k, s.limiter.limits k = w.limiter.limits k ∨ s.limiter.limits k = none)
    (hb : w.brk ≤ s.brk) : s.WF := by
  have keep : ∀ k p, s.limiter.limits k = some p → w.limiter.limits k = some p := by
    intro k p h
    rcases hl k with e | e
    · rw [← e]
      exact h
    · rw [e] at h
      cases h
  constructor
  · intro k p h
    exact Nat.lt_of_lt_of_le (hw.1 k p (keep k p h)) hb
  · intro k1 k2 p h1 h2
    exact hw.2 k1 k2 p (keep k1 p h1) (keep k2 p h2)

theorem WF_ofLimiter_New (maxBurst periodMillis : Int) (lim : Limiter TKey)
    (h : New TKey maxBurst periodMillis = Except.ok lim) : (World.ofLimiter lim).WF := by
  have hl : lim.limits = fun _ => none := by
    unfold New at h
    simp only at h
    by_cases hgt : (if maxBurst < 1 then 1 else maxBurst) > MaxInt32
    · rw [if_pos hgt] at h
      cases h
    · rw [if_neg hgt] at h
      injection h with h
      rw [← h]
  constructor
  · intro k p hk
    simp [World.ofLimiter, hl] at hk
  · intro k1 k2 p hk
    simp [World.ofLimiter, hl] at hk

theorem WF_remove (w : World TKey) (key : TKey) (hw : w.WF) : (Limiter.remove w key).WF := by
  refine WF_of_shrink w _ hw ?_ (Nat.le_refl _)
  intro k
  by_cases hk : k = key
  · right
    simp [Limiter.remove, setAt, hk]
  · left
    simp [Limiter.remove, setAt, hk]

theorem WF_of_agrees (l : Ptr) (key : TKey) (w s : World TKey) (hw : w.WF)
    (h : agreesExcept l key w s) : s.WF := by
  obtain ⟨_, _, a3, a4, _, a6⟩ := h
  refine WF_of_shrink w s hw ?_ (Nat.le_of_eq a6.symm)
  intro k
  by_cases hk : k = key
  · subst hk
    exact a4
  · exact Or.inl (a3 k hk)

theorem WF_tick (w : World TKey) (l ticker : Ptr) (key : TKey) (hw : w.WF) :
    (limit.tick w l ticker key).WF :=
  WF_of_agrees l key w _ hw (tick_agrees w l ticker key)

theorem WF_Try (now : Int) (es : List Event) (w s : World TKey) (key : TKey) (hw : w.WF)
    (h : (Limiter.Try now es w key).state? = some s) : s.WF := by
  cases hl : w.limiter.limits key with
  | some p =>
    rw [Try_present now es w key p hl] at h
    simp only [Outcome.state?, Option.some.injEq] at h
    subst h
    exact hw
  | none =>
    unfold Limiter.Try at h
    simp only [hl] at h
    have hfr := newLimit_frame now es w
    generalize hr : newLimit now es w key = r at h
    have entries : ∀ s1 : World TKey, r.state? = some s1 →
        ∀ k, s1.limiter.limits k = w.limiter.limits k ∨ s1.limiter.limits k = none := by
      intro s1 hs1 k
      obtain ⟨_, _, a3, a4, _, _, _⟩ := hfr s1 key (by rw [hr]; exact hs1)
      by_cases hk : k = key
      · subst hk
        exact a4
      · exact Or.inl (a3 k hk)
    cases r with
    | panicked msg => simp [Outcome.state?] at h
    | blocked s1 =>
      simp only [Outcome.state?, Option.some.injEq] at h
      subst h
      obtain ⟨_, _, _, _, _, a6, _⟩ := hfr s1 key (by rw [hr]; rfl)
      exact WF_of_shrink w s1 hw (entries s1 rfl) (by rw [a6]; exact Nat.le_succ _)
    | ret w1 lim =>
      obtain ⟨_, _, _, a4, _, a6, a7⟩ := hfr w1 key (by rw [hr]; rfl)
      have hlim : lim = w.brk := a7 w1 lim hr
      have hnone : w1.limiter.limits key = none := by
        rcases a4 with e | e
        · rw [e, hl]
        · exact e
      have keep : ∀ k p, w1.limiter.limits k = some p → w.limiter.limits k = some p := by
        intro k p hk
        rcases entries w1 rfl k with e | e
        · rw [← e]
          exact hk
        · rw [e] at hk
          cases hk
      simp only [hnone, Outcome.state?, Option.some.injEq] at h
      subst h
      subst hlim
      constructor
      · intro k p hk
        simp only [callAt_limiter, setAt] at hk
        show p < w1.brk
        rw [a6]
        split at hk
        · cases hk
          exact Nat.lt_succ_self _
        · exact Nat.lt_succ_of_lt (hw.1 k p (keep k p hk))
      · intro k1 k2 p h1 h2
        simp only [callAt_limiter, setAt] at h1 h2
        split at h1
        · rename_i e1
          cases h1
          split at h2
          · rename_i e2
            rw [e1, e2]
          · exact absurd (hw.1 k2 _ (keep k2 _ h2)) (Nat.lt_irrefl _)
        · split at h2
          · cases h2
            exact absurd (hw.1 k1 _ (keep k1 _ h1)) (Nat.lt_irrefl _)
          · exact hw.2 k1 k2 p (keep k1 p h1) (keep k2 p h2)

/-! ## Per-key isolation -/

theorem unaffected_of_frame (B : TKey) (pB : Ptr) (w s : World TKey)
    (hB : w.limiter.limits B = some pB) (h1 : s.limiter.limits B = some pB)
    (h2 : s.heap pB = w.heap pB) (h3 : s.limiter.maxBurst = w.limiter.maxBurst)
    (h4 : s.limiter.period = w.limiter.period) : unaffected B w s := by
  refine ⟨h1.trans hB.symm, ?_, ?_⟩
  · intro q hq
    rw [hB] at hq
    cases hq
    exact h2
  · intro now es
    rw [Try_present now es s B pB h1, Try_present now es w B pB hB]
    simp only [Outcome.val?, callAt_result, h2, h3, h4]

theorem Try_frame (now : Int) (es : List Event) (w s : World TKey) (A B : TKey) (pB : Ptr)
    (hAB : A ≠ B) (hB : w.limiter.limits B = some pB) (hbrk : pB < w.brk)
    (hA : w.limiter.limits A ≠ some pB)
    (h : (Limiter.Try now es w A).state? = some s) :
    s.limiter.limits B = some pB ∧ s.heap pB = w.heap pB ∧
      s.limiter.maxBurst = w.limiter.maxBurst ∧ s.limiter.period = w.limiter.period := by
  have hBA : B ≠ A := fun e => hAB e.symm
  cases hlA : w.limiter.limits A with
  | some pA =>
    rw [Try_present now es w A pA hlA] at h
    simp only [Outcome.state?, Option.some.injEq] at h
    subst h
    have hne : pB ≠ pA := by
      intro e
      apply hA
      rw [hlA, e]
    exact ⟨hB, callAt_heap_other w hne, rfl, rfl⟩
  | none =>
    unfold Limiter.Try at h
    simp only [hlA] at h
    have hfr := newLimit_frame now es w
    generalize hr : newLimit now es w A = r at h hfr
    have hpb : pB ≠ w.brk := Nat.ne_of_lt hbrk
    cases r with
    | panicked msg => simp [Outcome.state?] at h
    | blocked s1 =>
      simp only [Outcome.state?, Option.some.injEq] at h
      subst h
      obtain ⟨a1, a2, a3, _, a5, _, _⟩ := hfr s1 A (by rw [hr]; rfl)
      exact ⟨(a3 B hBA).trans hB, a5 pB hpb, a1, a2⟩
    | ret w1 lim =>
      obtain ⟨a1, a2, a3, a4, a5, _, a7⟩ := hfr w1 A (by rw [hr]; rfl)
      have hlim : lim = w.brk := a7 w1 lim hr
      have hnone : w1.limiter.limits A = none := by
        rcases a4 with e | e
        · rw [e, hlA]
        · exact e
      simp only [hnone, Outcome.state?, Option.some.injEq] at h
      subst h
      subst hlim
      refine ⟨?_, ?_, a1, a2⟩
      · simp only [callAt_limiter, setAt, if_neg hBA]
        exact (a3 B hBA).trans hB
      · rw [callAt_heap_other _ hpb]
        exact a5 pB hpb

theorem twoKeyWorld_WF : twoKeyWorld.WF := by
  constructor
  · intro k p h
    simp only [twoKeyWorld] at h ⊢
    split_ifs at h <;> simp only [Option.some.injEq, reduceCtorEq] at h <;> subst h <;> decide
  · intro k1 k2 p h1 h2
    simp only [twoKeyWorld] at h1 h2
    split_ifs at h1 <;> split_ifs at h2 <;>
      simp only [Option.some.injEq, reduceCtorEq] at h1 h2 <;> subst_vars <;>
      first | rfl | (exact absurd h2 (by decide))

/-- C6. Per-key isolation: in a well-formed registry, for keys `A ≠ B` with
`B` registered, `Try(A)` (in whatever state it returns or waits), a tick of
a state other than that of `B` on behalf of `A`, and `remove(A)` leave the
entry of `B` and the state of `B` (`amount` and `next`) as they were, and the
result of a following `Try(B)` is the one it would have been without them. -/
theorem per_key_isolation (w : World TKey) (A B : TKey) (pA pB : Ptr)
    (hwf : w.WF) (hAB : A ≠ B) (hB : w.limiter.limits B = some pB) (hpA : pA ≠ pB)
    (now : Int) (es : List Event) (s : World TKey)
    (h : (Limiter.Try now es w A).state? = some s) :
    unaffected B w s ∧
      unaffected B w (limit.tick w pA pA A) ∧
      unaffected B w (Limiter.remove w A) := by
  have hBA : B ≠ A := fun e => hAB e.symm
  have hbrk : pB < w.brk := hwf.1 B pB hB
  have hA : w.limiter.limits A ≠ some pB := fun e => hAB (hwf.2 A B pB e hB)
  refine ⟨?_, ?_, ?_⟩
  · obtain ⟨h1, h2, h3, h4⟩ := Try_frame now es w s A B pB hAB hB hbrk hA h
    exact unaffected_of_frame B pB w s hB h1 h2 h3 h4
  · obtain ⟨a1, a2, a3, _, a5, _⟩ := tick_agrees w pA pA A
    exact unaffected_of_frame B pB w _ hB ((a3 B hBA).trans hB) (a5 pB hpA.symm) a1 a2
  · refine unaffected_of_frame B pB w _ hB ?_ rfl rfl rfl
    simp only [Limiter.remove, setAt, if_neg hBA]
    exact hB

theorem per_key_isolation_witness :
    unaffected 8 twoKeyWorld (callAt twoKeyWorld 0).1 ∧
      unaffected 8 twoKeyWorld (limit.tick twoKeyWorld 0 0 7) ∧
      unaffected 8 twoKeyWorld (Limiter.remove twoKeyWorld 7) :=
  per_key_isolation twoKeyWorld 7 8 0 1 twoKeyWorld_WF (by decide) rfl (by decide)
    1000 [] (callAt twoKeyWorld 0).1 rfl

/-! ## Idle expiry -/

theorem tick_stopped (w : World TKey) (l : Ptr) (key : TKey)
    (h : wrapInt32 ((w.heap l).amount + (-1)) < 1) :
    (limit.tick w l l key).tickers l = false ∧
      (limit.tick w l l key).limiter.limits key = none := by
  unfold limit.tick
  simp only
  rw [if_pos h]
  simp [Limiter.remove, setAt]

theorem tick_running (w : World TKey) (l : Ptr) (key : TKey)
    (h : (limit.tick w l l key).tickers l = true) :
    1 ≤ wrapInt32 ((w.heap l).amount + (-1)) := by
  by_contra hlt
  have := (tick_stopped w l key (by omega)).1
  rw [this] at h
  cases h

theorem run_fresh_amount (l : Ptr) (key : TKey) :
    ∀ (es : List Event) (w s : World TKey),
      ((w.heap l).amount = 0 ∨ ((w.heap l).amount = -1 ∧ w.tickers l = false)) →
      (limit.run es w l l key).state? = some s →
      (s.heap l).amount = 0 ∨ (s.heap l).amount = -1 := by
  intro es
  induction es with
  | nil =>
    intro w s hw h
    simp only [limit.run, Outcome.state?, Option.some.injEq] at h
    subst h
    rcases hw with h0 | ⟨h1, _⟩
    · exact Or.inl h0
    · exact Or.inr h1
  | cons e es ih =>
    intro w s hw h
    cases e with
    | done =>
      simp only [limit.run, Outcome.state?, Option.some.injEq] at h
      subst h
      rcases hw with h0 | ⟨h1, _⟩
      · exact Or.inl h0
      · exact Or.inr h1
    | tick =>
      simp only [limit.run] at h
      split at h
      · rename_i hrun
        have h0 : (w.heap l).amount = 0 := by
          rcases hw with h0 | ⟨_, h2⟩
          · exact h0
          · rw [h2] at hrun
            cases hrun
        have hdec : wrapInt32 ((w.heap l).amount + (-1)) = -1 := by
          rw [h0]
          decide
        refine ih _ s (Or.inr ⟨?_, ?_⟩) h
        · rw [tick_amount, hdec]
        · exact (tick_stopped w l key (by rw [hdec]; decide)).1
      · exact ih w s hw h

theorem newLimit_amount (now : Int) (es : List Event) (w s : World TKey) (key : TKey)
    (h : (newLimit now es w key).state? = some s) :
    (s.heap w.brk).amount = 0 ∨ (s.heap w.brk).amount = -1 := by
  unfold newLimit at h
  simp only at h
  split at h
  · simp [Outcome.state?] at h
  · generalize hr : limit.run es _ w.brk w.brk key = r at h
    have hs : r.state? = some s := by
      cases r <;> simp [Outcome.state?] at h <;> simp [Outcome.state?, h]
    rw [← hr] at hs
    refine run_fresh_amount w.brk key es _ s (Or.inl ?_) hs
    simp [setAt]

theorem newLimit_returns (now : Int) (es : List Event) (w : World TKey) (key : TKey)
    (hd : 0 < wrapInt64 (w.limiter.period * 1000000)) :
    ∃ w1 : World TKey, newLimit now (Event.done :: es) w key = Outcome.ret w1 w.brk := by
  unfold newLimit
  simp only
  rw [if_neg (by omega)]
  simp only [limit.run]
  exact ⟨_, rfl⟩

/-- C9. Idle expiry: in a well-formed registry, a tick of key `k` whose registered state has
`amount = 1` brings `amount` to 0 and deletes the entry of `k`, every other
entry staying as it was; a following `Try(k)` that returns has registered a
newly allocated state (not the expired one, which it does not touch), is
admitted, and has recorded at most this one admission; and `Try(k)` does
return once the context is done. -/
theorem idle_expiry (w : World TKey) (k : TKey) (p : Ptr)
    (hwf : w.WF) (hk : w.limiter.limits k = some p) (ha : (w.heap p).amount = 1)
    (hm1 : 1 ≤ w.limiter.maxBurst) (hm2 : w.limiter.maxBurst ≤ MaxInt32)
    (hd : 0 < wrapInt64 (w.limiter.period * 1000000))
    (now : Int) (es : List Event) (s : World TKey) (r : Bool × Time)
    (hret : Limiter.Try now es (limit.tick w p p k) k = Outcome.ret s r) :
    (((limit.tick w p p k).heap p).amount = 0 ∧
      (limit.tick w p p k).limiter.limits k = none ∧
      ∀ k1, k1 ≠ k → (limit.tick w p p k).limiter.limits k1 = w.limiter.limits k1) ∧
    (s.limiter.limits k = some w.brk ∧ w.brk ≠ p ∧ r = (true, Time.zero) ∧
      (s.heap w.brk).amount ≤ 1 ∧ s.heap p = (limit.tick w p p k).heap p) ∧
    (∃ s1 r1, Limiter.Try now (Event.done :: es) (limit.tick w p p k) k
        = Outcome.ret s1 r1) := by
  have hdec : wrapInt32 ((w.heap p).amount + (-1)) = 0 := by
    rw [ha]
    decide
  have hamt : ((limit.tick w p p k).heap p).amount = 0 := by
    rw [tick_amount, hdec]
  have hnone : (limit.tick w p p k).limiter.limits k = none :=
    (tick_stopped w p k (by rw [hdec]; decide)).2
  obtain ⟨t1, t2, t3, _, _, t6⟩ := tick_agrees w p p k
  have hne : p ≠ w.brk := Nat.ne_of_lt (hwf.1 k p hk)
  refine ⟨⟨hamt, hnone, t3⟩, ?_, ?_⟩
  · unfold Limiter.Try at hret
    simp only [hnone] at hret
    have hfr := newLimit_frame now es (limit.tick w p p k)
    have hfa := newLimit_amount now es (limit.tick w p p k)
    generalize hr : newLimit now es (limit.tick w p p k) k = o at hret hfr hfa
    cases o with
    | panicked msg => simp at hret
    | blocked s1 => simp at hret
    | ret w1 lim =>
      obtain ⟨a1, a2, _, a4, a5, _, a7⟩ := hfr w1 k (by rw [hr]; rfl)
      have hlim : lim = w.brk := (a7 w1 lim hr).trans t6
      have hcases := hfa w1 k (by rw [hr]; rfl)
      rw [t6] at hcases a5
      have hn1 : w1.limiter.limits k = none := by
        rcases a4 with e | e
        · rw [e, hnone]
        · exact e
      simp only [hn1, Outcome.ret.injEq] at hret
      obtain ⟨hs, hres⟩ := hret
      subst hlim
      have hl32 : isInt32 (w1.heap w.brk).amount := by
        unfold isInt32
        rcases hcases with e | e <;> rw [e] <;> decide
      have hm32 : isInt32 w.limiter.maxBurst := by
        unfold isInt32 MaxInt32 at *
        omega
      have hlt : (w1.heap w.brk).amount < w.limiter.maxBurst := by
        rcases hcases with e | e <;> rw [e] <;> omega
      have hcall := call_accepts (w1.heap w.brk) w.limiter.maxBurst w.limiter.period
        hl32 hm32 hlt
      rw [← t1, ← a1, ← t2, ← a2] at hcall
      refine ⟨?_, hne.symm, ?_, ?_, ?_⟩
      · rw [← hs]
        simp [callAt, setAt]
      · rw [← hres]
        simp only [callAt, setAt, if_true]
        rw [hcall]
      · rw [← hs]
        simp only [callAt, setAt, if_true]
        rw [hcall]
        simp only
        rcases hcases with e | e <;> rw [e] <;> decide
      · rw [← hs]
        simp only [callAt, setAt, if_neg hne]
        exact a5 p hne
  · have hd1 : 0 < wrapInt64 ((limit.tick w p p k).limiter.period * 1000000) := by
      rw [t2]
      exact hd
    obtain ⟨w1, hw1⟩ := newLimit_returns now es (limit.tick w p p k) k hd1
    unfold Limiter.Try
    simp only [hnone, hw1]
    split <;> exact ⟨_, _, rfl⟩

theorem idle_expiry_witness :
    (((limit.tick twoKeyWorld 1 1 8).heap 1).amount = 0 ∧
      (limit.tick twoKeyWorld 1 1 8).limiter.limits 8 = none ∧
      ∀ k1, k1 ≠ 8 →
        (limit.tick twoKeyWorld 1 1 8).limiter.limits k1 = twoKeyWorld.limiter.limits k1) ∧
    (((Limiter.Try 5000 [Event.done] (limit.tick twoKeyWorld 1 1 8) 8).stateD
          twoKeyWorld).limiter.limits 8 = some twoKeyWorld.brk ∧
      twoKeyWorld.brk ≠ 1 ∧ ((true, Time.zero) : Bool × Time) = (true, Time.zero) ∧
      (((Limiter.Try 5000 [Event.done] (limit.tick twoKeyWorld 1 1 8) 8).stateD
          twoKeyWorld).heap twoKeyWorld.brk).amount ≤ 1 ∧
      ((Limiter.Try 5000 [Event.done] (limit.tick twoKeyWorld 1 1 8) 8).stateD
          twoKeyWorld).heap 1 = (limit.tick twoKeyWorld 1 1 8).heap 1) ∧
    (∃ s1 r1, Limiter.Try 5000 (Event.done :: [Event.done]) (limit.tick twoKeyWorld 1 1 8) 8
        = Outcome.ret s1 r1) :=
  idle_expiry twoKeyWorld 8 1 twoKeyWorld_WF rfl rfl (by decide) (by decide) (by decide)
    5000 [Event.done]
    ((Limiter.Try 5000 [Event.done] (limit.tick twoKeyWorld 1 1 8) 8).stateD twoKeyWorld)
    (true, Time.zero) rfl

/-! ## Reachable states of one `limit` -/

theorem call_amount (l : limit) (maxBurst period : Int)
    (hl : isInt32 l.amount) (hlt : l.amount < MaxInt32) :
    (l.call maxBurst period).1.amount = l.amount ∨
      ((l.call maxBurst period).1.amount = l.amount + 1 ∧ l.amount + 1 ≤ maxBurst) := by
  by_cases h : maxBurst ≤ l.amount
  · left
    rw [call_rejects l maxBurst period hl h hlt]
  · right
    have hw : wrapInt32 (l.amount + 1) = l.amount + 1 := by
      apply wrapInt32_of_isInt32
      unfold isInt32 MaxInt32 at *
      omega
    unfold limit.call
    simp only [hw]
    rw [if_neg (by omega)]
    exact ⟨rfl, by omega⟩

theorem stepInv_step (l : Ptr) (key : TKey) (w : World TKey) (op : Op)
    (h : stepInv l w) : stepInv l (stepAt l key w op) := by
  obtain ⟨hm, hlo, hhi, hrun⟩ := h
  have hl32 : isInt32 (w.heap l).amount := by
    unfold isInt32 MaxInt32 at *
    omega
  cases op with
  | call =>
    simp only [stepAt]
    have hc := call_amount (w.heap l) w.limiter.maxBurst w.limiter.period hl32 hhi
    refine ⟨hm, ?_, ?_, ?_⟩
    · rw [callAt_heap]
      rcases hc with e | ⟨e, _⟩ <;> rw [e] <;> omega
    · rw [callAt_heap]
      rcases hc with e | ⟨e, hle⟩ <;> rw [e] <;> omega
    · intro ht
      rw [callAt_heap]
      have h0 := hrun ht
      rcases hc with e | ⟨e, _⟩ <;> rw [e] <;> omega
  | tick =>
    simp only [stepAt]
    split
    · rename_i hr
      have h0 := hrun hr
      have hdec : wrapInt32 ((w.heap l).amount + (-1)) = (w.heap l).amount - 1 := by
        have : isInt32 ((w.heap l).amount + (-1)) := by
          unfold isInt32 MaxInt32 at *
          omega
        rw [wrapInt32_of_isInt32 this]
        omega
      obtain ⟨a1, _⟩ := tick_agrees w l l key
      refine ⟨by rw [a1]; exact hm, ?_, ?_, ?_⟩
      · rw [tick_amount, hdec]
        omega
      · rw [tick_amount, hdec]
        omega
      · intro ht
        have := tick_running w l key ht
        rw [tick_amount, hdec]
        omega
    · exact ⟨hm, hlo, hhi, hrun⟩

theorem stepInv_runOps (l : Ptr) (key : TKey) :
    ∀ (ops : List Op) (w : World TKey), stepInv l w → stepInv l (runOps l key ops w) := by
  intro ops
  induction ops with
  | nil => intro w h; exact h
  | cons op ops ih => intro w h; exact ih _ (stepInv_step l key w op h)

/-- C10 (as stated, refuted). The state that `newLimit` builds for
`New(3, 100)` before it enters `run` is fresh (`amount = 0`, ticker running),
and one completed `tick` from it leaves `amount = -1`, which is below 0. -/
theorem amount_below_zero_after_tick :
    ∃ w0 : World Nat,
      newLimit 1000 [] (World.ofLimiter ⟨fun _ => none, 3, 100⟩) 7 = Outcome.blocked w0 ∧
      isFresh w0 0 ∧
      ((runOps 0 7 [Op.tick] w0).heap 0).amount = -1 ∧
      ¬ (0 ≤ ((runOps 0 7 [Op.tick] w0).heap 0).amount) :=
  ⟨_, rfl, ⟨rfl, rfl⟩, rfl, by decide⟩

/-- C10 (amended). Counter lower bound: with `maxBurst < 2^31-1`, in every
state reachable from a fresh state (`amount = 0`, ticker running) by
completed `call` and `tick` steps, `amount` is never below -1, and it is
never below 0 while the ticker of the state is still running. -/
theorem amount_lower_bound (w : World TKey) (l : Ptr) (key : TKey) (ops : List Op)
    (hm : w.limiter.maxBurst < MaxInt32) (hf : isFresh w l) :
    -1 ≤ ((runOps l key ops w).heap l).amount ∧
      ((runOps l key ops w).tickers l = true →
        0 ≤ ((runOps l key ops w).heap l).amount) := by
  have h0 : stepInv l w := by
    obtain ⟨ha, ht⟩ := hf
    refine ⟨hm, ?_, ?_, ?_⟩
    · rw [ha]
      decide
    · rw [ha]
      decide
    · intro _
      rw [ha]
  obtain ⟨_, h1, _, h3⟩ := stepInv_runOps l key ops w h0
  exact ⟨h1, h3⟩

theorem amount_lower_bound_witness :
    -1 ≤ ((runOps 0 7 [Op.call, Op.tick, Op.tick, Op.call] sampleWorld).heap 0).amount ∧
      ((runOps 0 7 [Op.call, Op.tick, Op.tick, Op.call] sampleWorld).tickers 0 = true →
        0 ≤ ((runOps 0 7 [Op.call, Op.tick, Op.tick, Op.call] sampleWorld).heap 0).amount) :=
  amount_lower_bound sampleWorld 0 7 [Op.call, Op.tick, Op.tick, Op.call]
    (by decide) ⟨rfl, rfl⟩

/-! ## Counter upper bound -/

theorem stepAt_maxBurst (l : Ptr) (key : TKey) (w : World TKey) (op : Op) :
    (stepAt l key w op).limiter.maxBurst = w.limiter.maxBurst := by
  cases op with
  | call => rfl
  | tick =>
    simp only [stepAt]
    split
    · exact (tick_agrees w l l key).1
    · rfl

theorem upper_step (l : Ptr) (key : TKey) (w : World TKey) (op : Op)
    (h : stepInv l w) (hle : (w.heap l).amount ≤ w.limiter.maxBurst) :
    ((stepAt l key w op).heap l).amount ≤ w.limiter.maxBurst := by
  obtain ⟨hm, hlo, hhi, _⟩ := h
  have hl32 : isInt32 (w.heap l).amount := by
    unfold isInt32 MaxInt32 at *
    omega
  cases op with
  | call =>
    simp only [stepAt]
    rw [callAt_heap]
    rcases call_amount (w.heap l) w.limiter.maxBurst w.limiter.period hl32 hhi
      with e | ⟨e, hb⟩
    · rw [e]
      exact hle
    · rw [e]
      exact hb
  | tick =>
    simp only [stepAt]
    split
    · have hdec : wrapInt32 ((w.heap l).amount + (-1)) = (w.heap l).amount - 1 := by
        have : isInt32 ((w.heap l).amount + (-1)) := by
          unfold isInt32 MaxInt32 at *
          omega
        rw [wrapInt32_of_isInt32 this]
        omega
      rw [tick_amount, hdec]
      omega
    · exact hle

theorem upper_runOps (l : Ptr) (key : TKey) :
    ∀ (ops : List Op) (w : World TKey), stepInv l w →
      (w.heap l).amount ≤ w.limiter.maxBurst →
      ((runOps l key ops w).heap l).amount ≤ w.limiter.maxBurst := by
  intro ops
  induction ops with
  | nil => intro w _ h; exact h
  | cons op ops ih =>
    intro w hinv hle
    have h1 := stepInv_step l key w op hinv
    have h2 := upper_step l key w op hinv hle
    have h3 := stepAt_maxBurst l key w op
    have := ih (stepAt l key w op) h1 (by rw [h3]; exact h2)
    rw [h3] at this
    exact this

/-- C11. Counter upper bound: with `1 ≤ maxBurst < 2^31-1`, in every state
reachable from a fresh state (`amount = 0`, ticker running) by completed
`call` and `tick` steps, `amount` is never above `maxBurst`. -/
theorem amount_upper_bound (w : World TKey) (l : Ptr) (key : TKey) (ops : List Op)
    (h1 : 1 ≤ w.limiter.maxBurst) (h2 : w.limiter.maxBurst < MaxInt32)
    (hf : isFresh w l) :
    ((runOps l key ops w).heap l).amount ≤ w.limiter.maxBurst := by
  obtain ⟨ha, _⟩ := hf
  have h0 : stepInv l w := by
    refine ⟨h2, ?_, ?_, ?_⟩
    · rw [ha]
      decide
    · rw [ha]
      decide
    · intro _
      rw [ha]
  exact upper_runOps l key ops w h0 (by rw [ha]; omega)

theorem amount_upper_bound_witness :
    ((runOps 0 7 [Op.call, Op.call, Op.call, Op.call, Op.tick, Op.call, Op.call]
        sampleWorld).heap 0).amount ≤ sampleWorld.limiter.maxBurst :=
  amount_upper_bound sampleWorld 0 7
    [Op.call, Op.call, Op.call, Op.call, Op.tick, Op.call, Op.call]
    (by decide) (by decide) ⟨rfl, rfl⟩

/-! ## Lookup of an existing key -/

/-- C17. Lookup of an existing key: when the registry maps `k` to the state
at address `p`, `Try(k)` returns exactly the result of `call(maxBurst, period)`
on that state, allocates nothing, and leaves the registry (its keys and the
address each key is mapped to), every other state and the tickers as they
were. -/
theorem Try_existing (now : Int) (es : List Event) (w : World TKey) (k : TKey) (p : Ptr)
    (hk : w.limiter.limits k = some p) :
    ∃ s : World TKey,
      Limiter.Try now es w k
        = Outcome.ret s ((w.heap p).call w.limiter.maxBurst w.limiter.period).2 ∧
      s.heap p = ((w.heap p).call w.limiter.maxBurst w.limiter.period).1 ∧
      s.brk = w.brk ∧ s.limiter = w.limiter ∧ s.tickers = w.tickers ∧
      ∀ q, q ≠ p → s.heap q = w.heap q := by
  refine ⟨(callAt w p).1, ?_, callAt_heap w p, rfl, rfl, rfl, ?_⟩
  · rw [Try_present now es w k p hk]
    rfl
  · intro q hq
    exact callAt_heap_other w hq

theorem Try_existing_witness :
    ∃ s : World Nat,
      Limiter.Try 1000 [] twoKeyWorld 7
        = Outcome.ret s
            ((twoKeyWorld.heap 0).call twoKeyWorld.limiter.maxBurst
              twoKeyWorld.limiter.period).2 ∧
      s.heap 0 = ((twoKeyWorld.heap 0).call twoKeyWorld.limiter.maxBurst
          twoKeyWorld.limiter.period).1 ∧
      s.brk = twoKeyWorld.brk ∧ s.limiter = twoKeyWorld.limiter ∧
      s.tickers = twoKeyWorld.tickers ∧
      ∀ q, q ≠ 0 → s.heap q = twoKeyWorld.heap q :=
  Try_existing 1000 [] twoKeyWorld 7 0 rfl

/-! ## Non-expiring tick -/

theorem tick_keeps (w : World TKey) (l ticker : Ptr) (key : TKey)
    (ha32 : isInt32 (w.heap l).amount) (ha : 2 ≤ (w.heap l).amount)
    (hsum : isInt64 ((w.heap l).next + w.limiter.period)) :
    (limit.tick w l ticker key).heap l
        = ⟨(w.heap l).amount - 1, (w.heap l).next + w.limiter.period⟩ ∧
      (limit.tick w l ticker key).limiter = w.limiter ∧
      (limit.tick w l ticker key).tickers = w.tickers := by
  have hdec : wrapInt32 ((w.heap l).amount + (-1)) = (w.heap l).amount - 1 := by
    have : isInt32 ((w.heap l).amount + (-1)) := by
      unfold isInt32 at *
      omega
    rw [wrapInt32_of_isInt32 this]
    omega
  unfold limit.tick
  simp only [hdec]
  rw [if_neg (by omega)]
  refine ⟨?_, rfl, rfl⟩
  simp only [setAt, if_true]
  rw [wrapInt64_of_isInt64 hsum]

theorem tickN_next (l : Ptr) (key : TKey) :
    ∀ (k : Nat) (w : World TKey), isInt32 (w.heap l).amount → isInt64 (w.heap l).next →
      0 ≤ w.limiter.period → (k : Int) + 1 ≤ (w.heap l).amount →
      (w.heap l).next + k * w.limiter.period ≤ MaxInt64 →
      ((tickN l key k w).heap l).next = (w.heap l).next + k * w.limiter.period := by
  intro k
  induction k with
  | zero =>
    intro w _ _ _ _ _
    simp [tickN]
  | succ k ih =>
    intro w ha32 hn hp hk hsum
    have hkp : (0 : Int) ≤ (k : Int) * w.limiter.period :=
      Int.mul_nonneg (Int.ofNat_nonneg k) hp
    have hexp : ((k + 1 : Nat) : Int) * w.limiter.period
        = (k : Int) * w.limiter.period + w.limiter.period := by
      push_cast
      ring
    rw [hexp] at hsum
    have hk1 : ((k + 1 : Nat) : Int) = (k : Int) + 1 := by push_cast; rfl
    rw [hk1] at hk
    have h64 : isInt64 ((w.heap l).next + w.limiter.period) := by
      unfold isInt64 MaxInt64 at *
      omega
    obtain ⟨t1, t2, _⟩ := tick_keeps w l l key ha32 (by omega) h64
    have hrec := ih (limit.tick w l l key)
      (by rw [t1]; unfold isInt32 at *; simp only; omega)
      (by rw [t1]; exact h64)
      (by rw [t2]; exact hp)
      (by rw [t1]; simp only; omega)
      (by rw [t1, t2]; simp only; omega)
    simp only [tickN]
    rw [hrec, t1, t2, hexp]
    simp only
    omega

/-- C16 (as stated, refuted). Function `New(3, 2^62 + 1)` returns a registry
with that period; on a state created at `1000` with `amount = 3` the first
tick finds `amount = 3` and the second `amount = 2`, and after these two
non-expiring ticks `next` is `-9223372036854774806`, not
`1000 + 2 * period`: the second addition wraps around in `int64`.  (The
ticker interval that `newLimit` computes for this period is positive.) -/
theorem tick_next_wraps :
    (∃ lim : Limiter Nat, New Nat 3 4611686018427387905 = Except.ok lim ∧
      lim.period = longPeriodWorld.limiter.period) ∧
    (longPeriodWorld.heap 0).amount = 3 ∧
    ((limit.tick longPeriodWorld 0 0 7).heap 0).amount = 2 ∧
    ((limit.tick (limit.tick longPeriodWorld 0 0 7) 0 0 7).heap 0).next
      ≠ ((limit.tick longPeriodWorld 0 0 7).heap 0).next + longPeriodWorld.limiter.period ∧
    ((tickN 0 7 2 longPeriodWorld).heap 0).next = -9223372036854774806 ∧
    ((tickN 0 7 2 longPeriodWorld).heap 0).next
      ≠ 1000 + 2 * longPeriodWorld.limiter.period ∧
    0 < wrapInt64 (longPeriodWorld.limiter.period * 1000000) :=
  ⟨⟨_, rfl, rfl⟩, rfl, rfl, by decide, rfl, by decide, by decide⟩

/-- C16 (amended). Non-expiring tick: on a state with `amount ≥ 2` whose
`next + period` does not exceed `2^63-1` (with `period ≥ 0`), `tick`
decreases `amount` by exactly 1, advances `next` by exactly `period` and
leaves the registry unchanged; hence after `k` such ticks (`amount ≥ k + 1`)
on a state with `next = t0` and `t0 + k * period ≤ 2^63-1`, `next` is
`t0 + k * period`. -/
theorem tick_nonexpiring (w : World TKey) (l ticker : Ptr) (key : TKey) (k : Nat)
    (ha32 : isInt32 (w.heap l).amount) (hn : isInt64 (w.heap l).next)
    (ha : 2 ≤ (w.heap l).amount) (hp : 0 ≤ w.limiter.period)
    (hsum : (w.heap l).next + w.limiter.period ≤ MaxInt64)
    (hk : (k : Int) + 1 ≤ (w.heap l).amount)
    (hksum : (w.heap l).next + k * w.limiter.period ≤ MaxInt64) :
    ((limit.tick w l ticker key).heap l).amount = (w.heap l).amount - 1 ∧
      ((limit.tick w l ticker key).heap l).next = (w.heap l).next + w.limiter.period ∧
      (limit.tick w l ticker key).limiter = w.limiter ∧
      ((tickN l key k w).heap l).next = (w.heap l).next + k * w.limiter.period := by
  have h64 : isInt64 ((w.heap l).next + w.limiter.period) := by
    unfold isInt64 MaxInt64 at *
    omega
  obtain ⟨t1, t2, _⟩ := tick_keeps w l ticker key ha32 ha h64
  refine ⟨by rw [t1], by rw [t1], t2, ?_⟩
  exact tickN_next l key k w ha32 hn hp hk hksum

theorem tick_nonexpiring_witness :
    ((limit.tick twoKeyWorld 0 0 7).heap 0).amount = (twoKeyWorld.heap 0).amount - 1 ∧
      ((limit.tick twoKeyWorld 0 0 7).heap 0).next
        = (twoKeyWorld.heap 0).next + twoKeyWorld.limiter.period ∧
      (limit.tick twoKeyWorld 0 0 7).limiter = twoKeyWorld.limiter ∧
      ((tickN 0 7 2 twoKeyWorld).heap 0).next
        = (twoKeyWorld.heap 0).next + (2 : Nat) * twoKeyWorld.limiter.period :=
  tick_nonexpiring twoKeyWorld 0 0 7 2 (by decide) (by decide) (by decide) (by decide)
    (by decide) (by decide) (by decide)

/-! ## The decay loop runs inside `newLimit` -/

theorem run_blocked (l ticker : Ptr) (key : TKey) :
    ∀ (es : List Event) (w : World TKey), Event.done ∉ es →
      ∃ s : World TKey, limit.run es w l ticker key = Outcome.blocked s := by
  intro es
  induction es with
  | nil => intro w _; exact ⟨w, rfl⟩
  | cons e es ih =>
    intro w hnd
    have hes : Event.done ∉ es := fun h => hnd (List.mem_cons_of_mem _ h)
    cases e with
    | done => exact absurd (List.mem_cons_self _ _) hnd
    | tick =>
      simp only [limit.run]
      split
      · exact ih _ hes
      · exact ih _ hes

theorem run_ret_stopped (l ticker : Ptr) (key : TKey) :
    ∀ (es : List Event) (w s : World TKey) (u : Unit),
      limit.run es w l ticker key = Outcome.ret s u → s.tickers ticker = false := by
  intro es
  induction es with
  | nil =>
    intro w s u h
    simp [limit.run] at h
  | cons e es ih =>
    intro w s u h
    cases e with
    | done =>
      simp only [limit.run, Outcome.ret.injEq] at h
      rw [← h.1]
      simp [setAt]
    | tick =>
      simp only [limit.run] at h
      split at h
      · exact ih _ s u h
      · exact ih _ s u h

theorem run_never_panics (l ticker : Ptr) (key : TKey) :
    ∀ (es : List Event) (w : World TKey) (msg : String),
      limit.run es w l ticker key ≠ Outcome.panicked msg := by
  intro es
  induction es with
  | nil =>
    intro w msg h
    simp [limit.run] at h
  | cons e es ih =>
    intro w msg h
    cases e with
    | done => simp [limit.run] at h
    | tick =>
      simp only [limit.run] at h
      split at h
      · exact ih _ msg h
      · exact ih _ msg h

theorem newLimit_blocked (now : Int) (es : List Event) (w : World TKey) (key : TKey)
    (hd : 0 < wrapInt64 (w.limiter.period * 1000000)) (hnd : Event.done ∉ es) :
    ∃ s : World TKey, newLimit now es w key = Outcome.blocked s := by
  unfold newLimit
  simp only
  rw [if_neg (by omega)]
  obtain ⟨s, hs⟩ := run_blocked w.brk w.brk key es
    ({ w with
        heap := setAt (setAt w.heap w.brk ⟨0, 0⟩) w.brk
          { setAt w.heap w.brk ⟨0, 0⟩ w.brk with next := now }
        brk := w.brk + 1
        tickers := setAt w.tickers w.brk true } : World TKey) hnd
  exact ⟨s, by rw [hs]⟩

/-- Function `Try` on a key that is not registered does not return before the
context is done: on every schedule without `done` it is still waiting. -/
theorem Try_blocked (now : Int) (es : List Event) (w : World TKey) (key : TKey)
    (hk : w.limiter.limits key = none)
    (hd : 0 < wrapInt64 (w.limiter.period * 1000000)) (hnd : Event.done ∉ es) :
    ∃ s : World TKey, Limiter.Try now es w key = Outcome.blocked s := by
  obtain ⟨s, hs⟩ := newLimit_blocked now es w key hd hnd
  unfold Limiter.Try
  simp only [hk, hs]
  exact ⟨s, rfl⟩

theorem newLimit_ret_stopped (now : Int) (es : List Event) (w s : World TKey) (key : TKey)
    (lim : Ptr) (h : newLimit now es w key = Outcome.ret s lim) :
    s.tickers lim = false := by
  have hlim : lim = w.brk :=
    (newLimit_frame now es w s key (by rw [h]; rfl)).2.2.2.2.2.2 s lim h
  subst hlim
  unfold newLimit at h
  simp only at h
  split at h
  · simp at h
  · generalize hr : limit.run es _ w.brk w.brk key = r at h
    cases r with
    | panicked msg => simp at h
    | blocked s1 => simp at h
    | ret s1 u =>
      simp only [Outcome.ret.injEq, and_true] at h
      subst h
      exact run_ret_stopped w.brk w.brk key es _ s1 u hr

/-- Function `Try` on a key that is not registered registers the new state
only after its `run` loop has returned, with its ticker stopped. -/
theorem Try_registers_stopped (now : Int) (es : List Event) (w s : World TKey) (key : TKey)
    (r : Bool × Time) (hk : w.limiter.limits key = none)
    (h : Limiter.Try now es w key = Outcome.ret s r) :
    s.limiter.limits key = some w.brk ∧ s.tickers w.brk = false := by
  unfold Limiter.Try at h
  simp only [hk] at h
  have hfr := newLimit_frame now es w
  have hst := newLimit_ret_stopped now es w
  generalize hr : newLimit now es w key = o at h
  cases o with
  | panicked msg => simp at h
  | blocked s1 => simp at h
  | ret w1 lim =>
    obtain ⟨_, _, _, a4, _, _, a7⟩ := hfr w1 key (by rw [hr]; rfl)
    have hlim : lim = w.brk := a7 w1 lim hr
    have hstop := hst w1 key lim hr
    have hnone : w1.limiter.limits key = none := by
      rcases a4 with e | e
      · rw [e, hk]
      · exact e
    simp only [hnone, Outcome.ret.injEq] at h
    obtain ⟨hs, _⟩ := h
    subst hlim
    rw [← hs]
    constructor
    · simp [callAt, setAt]
    · exact hstop

/-- C12. Scenario `New(3, 100)`, key `"x"` not yet seen: whether the context is
done at once or after the first tick, `Try("x")` returns with `"x"` mapped to
the state at address `0` whose ticker is stopped: the state was inserted into
the map after its `run` loop had returned. -/
theorem registered_after_decay_stopped :
    ∃ (lim : Limiter String) (w1 w2 : World String),
      New String 3 100 = Except.ok lim ∧
      Limiter.Try 1000 [Event.done] (World.ofLimiter lim) "x"
        = Outcome.ret w1 (true, Time.zero) ∧
      w1.limiter.limits "x" = some 0 ∧ w1.tickers 0 = false ∧
      Limiter.Try 1000 [Event.tick, Event.done] (World.ofLimiter lim) "x"
        = Outcome.ret w2 (true, Time.zero) ∧
      w2.limiter.limits "x" = some 0 ∧ w2.tickers 0 = false :=
  ⟨_, _, _, rfl, rfl, rfl, rfl, rfl, rfl, rfl⟩

/-- C13. Scenario `New(3, 100)`, key `"x"` not yet seen, context never done:
however many ticks have fired, `Try("x")` has not returned; it is still
waiting in the `select` of `run`, which `newLimit` called. -/
theorem Try_waits_for_context :
    ∃ lim : Limiter String,
      New String 3 100 = Except.ok lim ∧
      ∀ n : Nat, ∃ s : World String,
        Limiter.Try 1000 (List.replicate n Event.tick) (World.ofLimiter lim) "x"
          = Outcome.blocked s := by
  refine ⟨_, rfl, ?_⟩
  intro n
  apply Try_blocked
  · rfl
  · decide
  · intro h
    have := List.eq_of_mem_replicate h
    cases this

/-- C14. Scenario `New(3, 100)`, key `"x"` not yet seen, one tick fires before
the context is done: `Try("x")` returns admitted with `"x"` registered at
address `0`, but the state records `amount = 0`, not 1; of five such `Try`
four are admitted. -/
theorem first_Try_after_tick_amount_zero :
    ∃ (lim : Limiter String) (w w5 : World String),
      New String 3 100 = Except.ok lim ∧
      Limiter.Try 1000 [Event.tick, Event.done] (World.ofLimiter lim) "x"
        = Outcome.ret w (true, Time.zero) ∧
      w.limiter.limits "x" = some 0 ∧ (w.heap 0).amount = 0 ∧
      Limiter.TryN 1000 [Event.tick, Event.done] "x" 5 (World.ofLimiter lim)
        = Outcome.ret w5
            [(true, Time.zero), (true, Time.zero), (true, Time.zero), (true, Time.zero),
              (false, Time.UnixMilli 1000)] :=
  ⟨_, _, _, rfl, rfl, rfl, rfl, rfl⟩

/-! ## Numeric limits -/

/-- From `amount = 0`, `n ≤ maxBurst` consecutive calls are all admitted and
leave `amount = n`. -/
theorem calls_reach (maxBurst period : Int) (hm : isInt32 maxBurst) :
    ∀ (n : Nat) (l : limit), 0 ≤ l.amount → l.amount + n ≤ maxBurst →
      (limit.calls maxBurst period n l).1 = { l with amount := l.amount + n } := by
  intro n
  induction n with
  | zero =>
    intro l _ _
    simp [limit.calls]
  | succ n ih =>
    intro l h0 hle
    have hcast : ((n + 1 : Nat) : Int) = (n : Int) + 1 := by push_cast; rfl
    rw [hcast] at hle
    have hl32 : isInt32 l.amount := by
      unfold isInt32 at *
      omega
    have ha := call_accepts l maxBurst period hl32 hm (by omega)
    have hrec := ih { l with amount := l.amount + 1 } (by simp only; omega)
      (by simp only; omega)
    simp only [limit.calls, ha, hrec, hcast]
    congr 1
    omega

/-- C18. Function `New(2147483647, 1)` returns a registry with
`maxBurst = 2^31-1`; `2^31-1` calls from `amount = 0` leave
`amount = maxBurst`; on that state the increment of `call` wraps around to
`-2^31`, which is not above `maxBurst`, so the call is admitted and `amount`
is left at `-2147483648`. -/
theorem call_wraps_at_MaxInt32 :
    (∃ lim : Limiter Nat, New Nat 2147483647 1 = Except.ok lim ∧
      lim.maxBurst = 2147483647) ∧
    (limit.calls 2147483647 1 2147483647 (limit.mk 0 1000)).1 = limit.mk 2147483647 1000 ∧
    wrapInt32 (2147483647 + 1) = -2147483648 ∧
    (limit.mk 2147483647 1000).call 2147483647 1
      = (limit.mk (-2147483648) 1000, true, Time.zero) := by
  refine ⟨⟨_, rfl, rfl⟩, ?_, by decide, rfl⟩
  have h := calls_reach 2147483647 1 (by decide) 2147483647 (limit.mk 0 1000)
    (by decide) (by decide)
  rw [h]
  rfl

/-- C19 (as stated, refuted). Function `New(1, 9223372036855)` stores the
period `9223372036855 ≥ 1`; the interval `period * 1000000` computed in
`int64` is `-9223372036854551616`, not the exact product and not positive,
and `Try` on a new key panics in `time.NewTicker`. -/
theorem ticker_interval_wraps :
    ∃ lim : Limiter Nat,
      New Nat 1 9223372036855 = Except.ok lim ∧
      lim.period = 9223372036855 ∧
      wrapInt64 (lim.period * 1000000) = -9223372036854551616 ∧
      wrapInt64 (lim.period * 1000000) ≠ lim.period * 1000000 ∧
      ¬ (0 < wrapInt64 (lim.period * 1000000)) ∧
      Limiter.Try 1000 [Event.done] (World.ofLimiter lim) 7
        = Outcome.panicked "non-positive interval for NewTicker" :=
  ⟨_, rfl, rfl, by decide, by decide, by decide, rfl⟩

theorem newLimit_never_panics (now : Int) (es : List Event) (w : World TKey) (key : TKey)
    (hd : 0 < wrapInt64 (w.limiter.period * 1000000)) (msg : String) :
    newLimit now es w key ≠ Outcome.panicked msg := by
  intro h
  unfold newLimit at h
  simp only at h
  rw [if_neg (by omega)] at h
  generalize hr : limit.run es _ w.brk w.brk key = r at h
  cases r with
  | panicked m => exact run_never_panics w.brk w.brk key es _ m hr
  | blocked s1 => simp at h
  | ret s1 u => simp at h

theorem Try_never_panics (now : Int) (es : List Event) (w : World TKey) (key : TKey)
    (hd : 0 < wrapInt64 (w.limiter.period * 1000000)) (msg : String) :
    Limiter.Try now es w key ≠ Outcome.panicked msg := by
  intro h
  unfold Limiter.Try at h
  cases hk : w.limiter.limits key with
  | some p => simp [hk] at h
  | none =>
    simp only [hk] at h
    generalize hr : newLimit now es w key = o at h
    cases o with
    | panicked m => exact newLimit_never_panics now es w key hd m hr
    | blocked s1 => simp at h
    | ret w1 lim =>
      simp only at h
      split at h <;> simp at h

/-- C19 (amended). Ticker interval: for every stored period with
`1 ≤ period ≤ 9223372036854`, the interval `period * 1000000` computed in
`int64` equals the exact product and is strictly positive, so `Try` never
panics on the ticker interval. -/
theorem ticker_interval_ok (now : Int) (es : List Event) (w : World TKey) (key : TKey)
    (msg : String) (h1 : 1 ≤ w.limiter.period) (h2 : w.limiter.period ≤ 9223372036854) :
    wrapInt64 (w.limiter.period * 1000000) = w.limiter.period * 1000000 ∧
      0 < wrapInt64 (w.limiter.period * 1000000) ∧
      Limiter.Try now es w key ≠ Outcome.panicked msg := by
  have hw : wrapInt64 (w.limiter.period * 1000000) = w.limiter.period * 1000000 := by
    apply wrapInt64_of_isInt64
    unfold isInt64
    omega
  have hpos : 0 < wrapInt64 (w.limiter.period * 1000000) := by
    rw [hw]
    omega
  exact ⟨hw, hpos, Try_never_panics now es w key hpos msg⟩

theorem ticker_interval_ok_witness :
    wrapInt64 (sampleWorld.limiter.period * 1000000) = sampleWorld.limiter.period * 1000000 ∧
      0 < wrapInt64 (sampleWorld.limiter.period * 1000000) ∧
      Limiter.Try 1000 [Event.tick, Event.done] sampleWorld 9
        ≠ Outcome.panicked "non-positive interval for NewTicker" :=
  ticker_interval_ok 1000 [Event.tick, Event.done] sampleWorld 9
    "non-positive interval for NewTicker" (by decide) (by decide)

/-! ## Callers of one new key -/

/-- C15. Scenario `M = 2`, `New(1, 100)` (`maxBurst = M/2 = 1`), key `"x"` not
yet seen, the two callers running one after the other (one of the
interleavings), the first context done after the first tick: both `Try("x")`
are admitted and none is denied, instead of one and one.  With a context
that is never done the first caller has not returned after any number of
ticks, so no decision is made at all. -/
theorem two_callers_both_admitted :
    ∃ (lim : Limiter String) (w : World String),
      New String 1 100 = Except.ok lim ∧
      lim.maxBurst = 1 ∧
      Limiter.TryN 1000 [Event.tick, Event.done] "x" 2 (World.ofLimiter lim)
        = Outcome.ret w [(true, Time.zero), (true, Time.zero)] ∧
      w.limiter.limits "x" = some 0 ∧
      (w.heap 0).amount = 1 ∧
      ∀ n : Nat, ∃ s : World String,
        Limiter.TryN 1000 (List.replicate n Event.tick) "x" 2 (World.ofLimiter lim)
          = Outcome.blocked s := by
  refine ⟨_, _, rfl, rfl, rfl, rfl, rfl, ?_⟩
  intro n
  have hnd : Event.done ∉ List.replicate n Event.tick := by
    intro h
    have := List.eq_of_mem_replicate h
    cases this
  have key : ∀ w0 : World String, w0.limiter.limits "x" = none →
      0 < wrapInt64 (w0.limiter.period * 1000000) →
      ∃ s : World String,
        Limiter.TryN 1000 (List.replicate n Event.tick) "x" 2 w0 = Outcome.blocked s := by
    intro w0 h1 h2
    obtain ⟨s, hs⟩ := Try_blocked 1000 (List.replicate n Event.tick) w0 "x" h1 h2 hnd
    refine ⟨s, ?_⟩
    simp only [Limiter.TryN]
    rw [hs]
  exact key _ rfl (by decide)

end RateLimiter
